import Mathlib

/-!
Verification of the token-to-audio-timing alignment engine of the
chinese-flashcards repository.

The definitions below are a shallow embedding, translated line by line from
  - `src/backend/src/services/tokenization.service.ts`
    (`tokenize`, `createTokenToSegmentMapping`, `getTokenAtTime`),
  - `src/backend/src/services/tts-segmentation.service.ts` (`mapTTSBoundaries`),
  - `src/backend/src/routes/index.ts` (the `synthesizer.wordBoundary` handler).

JavaScript strings are modeled as `List Char` (faithful for the BMP text the
service handles), numeric time values as `ℚ`, and the mutable
`usedTtsMappings : Set<number>` as a duplicate-free `List ℕ` of indices.
The service code only ever stores distinct object references in `ttsMappings`,
so the `findIndex(m => m === ...)` reference lookups used to release collected
mappings are modeled by tracking element indices directly.
-/

abbrev Str := List Char

unseal Rat.add Rat.mul Rat.sub Rat.inv in
/-- JavaScript whitespace characters relevant to `String.trim` / `\s`. -/
def isWS (c : Char) : Bool :=
  c = ' ' || c = '\t' || c = '\n' || c = '\r' ||
  c.toNat = 0x0B || c.toNat = 0x0C || c.toNat = 0xA0 ||
  c.toNat = 0x3000 || c.toNat = 0xFEFF

/-- `String.prototype.trim`: strip whitespace from both ends. -/
def trim (s : Str) : Str :=
  ((s.dropWhile isWS).reverse.dropWhile isWS).reverse

/-- `a.includes(b)` — substring test. -/
def strIncludes : Str → Str → Bool
  | [], sub => sub.isEmpty
  | c :: rest, sub => sub.isPrefixOf (c :: rest) || strIncludes rest sub

/-- `a.startsWith(b)`. -/
def strStartsWith (s p : Str) : Bool := p.isPrefixOf s

/-- `/[一-鿿]/.test(ch)` — the basic CJK check in `tokenize`. -/
def isHan (c : Char) : Bool := 0x4E00 ≤ c.toNat && c.toNat ≤ 0x9FFF

/-- Characters of the punctuation class
`[，。！？；：“”‘’（）【】、\s.,!?;:"'()\[\]\s]` used by the gap-fill phase. -/
def isPunctChar (c : Char) : Bool :=
  c ∈ ['，', '。', '！', '？', '；', '：', '“', '”', '‘', '’', '（', '）',
       '【', '】', '、', '.', ',', '!', '?', ';', ':', '"', '\'', '(', ')',
       '[', ']'] || isWS c

/-- `/^[...]+$/.test(token.text.trim())`: non-empty after trim and every
character in the punctuation class. -/
def isPunctuationToken (t : Str) : Bool :=
  let s := trim t
  !s.isEmpty && s.all isPunctChar

/-- Vocabulary entry (`Word` in `tokenization.service.ts`). -/
structure Word where
  id : ℕ
  simplified : Str
  pinyin : Str
  english : Str
  hskLevel : ℕ
deriving DecidableEq, Repr

instance : Inhabited Word := ⟨⟨0, [], [], [], 0⟩⟩

/-- Display token (`Token` in `tokenization.service.ts`). -/
structure Token where
  text : Str
  word : Option Word
  index : ℕ
deriving DecidableEq, Repr

instance : Inhabited Token := ⟨⟨[], none, 0⟩⟩

/-- TTS segment (`SegmentedWord` in `tts-segmentation.service.ts`). -/
structure Segment where
  text : Str
  start : ℕ
  stop : ℕ
  index : ℕ
deriving DecidableEq, Repr

instance : Inhabited Segment := ⟨⟨[], 0, 0, 0⟩⟩

/-- One boundary event bound to a segment
(element type of the `ttsMappings` argument / `mapTTSBoundaries` output). -/
structure SegMapping where
  segmentIndex : ℤ
  start : ℚ
  duration : ℚ
  word : Str
deriving DecidableEq, Repr

instance : Inhabited SegMapping := ⟨⟨0, 0, 0, []⟩⟩

/-- Final per-token interval (`TokenMapping` in `tokenization.service.ts`).
`segmentIndex = -1` marks estimated (gap-filled) mappings. -/
structure TokenMapping where
  tokenIndex : ℕ
  segmentIndex : ℤ
  text : Str
  start : ℚ
  stop : ℚ
deriving DecidableEq, Repr

instance : Inhabited TokenMapping := ⟨⟨0, 0, [], 0, 0⟩⟩

/-- Raw TTS boundary event (input of `mapTTSBoundaries`). -/
structure Boundary where
  word : Str
  start : ℚ
  duration : ℚ
deriving DecidableEq, Repr

instance : Inhabited Boundary := ⟨⟨[], 0, 0⟩⟩

/-! ## Vocabulary tokenizer (`tokenize`, lines 31–95) -/

/-- `buildLookup`: the max key length (`maxLen`, initialized to 1). -/
def buildLookupMax (words : List Word) : ℕ :=
  words.foldl (fun m w => max m w.simplified.length) 1

/-- `map.get(sub)` for the Map built by `buildLookup` via successive
`map.set(w.simplified, w)`: the last inserted entry for a key wins. -/
def lookupWord (words : List Word) (s : Str) : Option Word :=
  words.foldl (fun acc w => if w.simplified = s then some w else acc) none

/-- The longest-match loop of `tokenize`
(`for (let len = min(maxLen, remaining); len > 0; len--)`). -/
def findMatch (words : List Word) (cs : Str) : ℕ → Option (Word × ℕ)
  | 0 => none
  | l + 1 =>
    match lookupWord words (cs.take (l + 1)) with
    | some w => some (w, l + 1)
    | none => findMatch words cs l

/-- Main tokenizer loop; `fuel` bounds the recursion and is set to the text
length (each iteration consumes at least one character). -/
def tokenizeGo (words : List Word) (maxLen : ℕ) : ℕ → Str → ℕ → List Token
  | 0, _, _ => []
  | _, [], _ => []
  | fuel + 1, c :: cs, idx =>
    if isHan c then
      match findMatch words (c :: cs) (min maxLen (cs.length + 1)) with
      | some (w, len) =>
        ⟨(c :: cs).take len, some w, idx⟩ ::
          tokenizeGo words maxLen fuel ((c :: cs).drop len) (idx + 1)
      | none => ⟨[c], none, idx⟩ :: tokenizeGo words maxLen fuel cs (idx + 1)
    else
      ⟨c :: cs.takeWhile (fun d => !isHan d), none, idx⟩ ::
        tokenizeGo words maxLen fuel (cs.dropWhile (fun d => !isHan d)) (idx + 1)

/-- `TokenizationService.tokenize` (lines 44–95). -/
def tokenize (content : Str) (words : List Word) : List Token :=
  tokenizeGo words (buildLookupMax words) content.length content 0

/-! ## Segment mapper (`TTSSegmentationService.mapTTSBoundaries`, lines 53–87) -/

/-- `segment.text.includes(boundaryWord) || boundaryWord.includes(segment.text)`. -/
def segMatch (segText w : Str) : Bool :=
  strIncludes segText w || strIncludes w segText

/-- The inner `while (segmentIndex < segmentedWords.length)` scan: first index
`j ≥ cursor` whose segment matches the trimmed boundary word. -/
def findSeg (segs : List Segment) (w : Str) (cursor : ℕ) : Option ℕ :=
  (List.range' cursor (segs.length - cursor)).find?
    (fun j => segMatch (segs.getD j default).text w)

/-- Main loop of `mapTTSBoundaries`, with the moving `segmentIndex` cursor.
On a bind the cursor advances past the bound segment; when the scan runs off
the end of `segs` the cursor is left at `segs.length`. -/
def mapGo (segs : List Segment) : List Boundary → ℕ → List SegMapping
  | [], _ => []
  | b :: rest, cursor =>
    match findSeg segs (trim b.word) cursor with
    | some j =>
      ⟨(j : ℤ), b.start, b.duration, (segs.getD j default).text⟩ ::
        mapGo segs rest (j + 1)
    | none => mapGo segs rest segs.length

/-- `TTSSegmentationService.mapTTSBoundaries`. -/
def mapTTSBoundaries (segs : List Segment) (bs : List Boundary) :
    List SegMapping :=
  mapGo segs bs 0

/-! ## Boundary normalizer (`synthesizer.wordBoundary` handler,
`routes/index.ts` lines 145–157) -/

/-- Raw event from the speech SDK (`event.text`, `event.audioOffset`,
`event.duration`, both time fields in ticks). -/
structure RawEvent where
  text : Str
  audioOffset : ℚ
  duration : ℚ
deriving DecidableEq, Repr

/-- `WordTiming` pushed by the handler (tick fields divided by 10,000). -/
structure WordTiming where
  word : Str
  start : ℚ
  duration : ℚ
  audioOffset : ℚ
deriving DecidableEq, Repr

/-- The `wordBoundary` handler, fired once per raw event in order: each event
is converted from ticks to milliseconds and pushed onto `wordTimings`. -/
def collectWordTimings (events : List RawEvent) : List WordTiming :=
  events.foldl
    (fun acc e =>
      acc ++ [⟨e.text, e.audioOffset / 10000, e.duration / 10000, e.audioOffset⟩])
    []

/-! ## Token aligner (`createTokenToSegmentMapping`, lines 100–315) -/

/-- `usedTtsMappings.add(i)` (Set semantics over a duplicate-free list). -/
def setAdd (s : List ℕ) (i : ℕ) : List ℕ := if i ∈ s then s else s ++ [i]

/-- `usedTtsMappings.delete(i)`. -/
def setDel (s : List ℕ) (i : ℕ) : List ℕ := s.filter (fun j => j ≠ i)

/-- Release every collected mapping index back to unused
(the `collectedWords.forEach(... usedTtsMappings.delete ...)` blocks). -/
def releaseAll (collected used : List ℕ) : List ℕ := collected.foldl setDel used

/-- First pass (lines 109–129): for each boundary mapping, bind it to the
first token whose text equals the trimmed word — with no check that the token
is still unmapped. -/
def phaseA (tokens : List Token) (tms : List SegMapping) :
    List TokenMapping × List ℕ :=
  (List.range tms.length).foldl
    (fun acc i =>
      let m := tms.getD i default
      match tokens.findIdx? (fun t => t.text = trim m.word) with
      | some ti =>
        (acc.1 ++ [⟨ti, m.segmentIndex, (tokens.getD ti default).text,
                    m.start, m.start + m.duration⟩],
         setAdd acc.2 i)
      | none => acc)
    ([], [])

/-- Inner loop of the second pass (lines 147–185): scan the remaining boundary
mapping indices, accumulating consecutive unused words that extend a prefix of
the token text.  Returns the bound `(segmentIndex, start, end)` payload on a
complete match, and the updated used set. -/
def phaseBScan (tokText : Str) (tms : List SegMapping) :
    List ℕ → List ℕ → Str → List ℕ → Option (ℤ × ℚ × ℚ) × List ℕ
  | [], collected, _, used => (none, releaseAll collected used)
  | i :: rest, collected, acc, used =>
    if i ∈ used then phaseBScan tokText tms rest collected acc used
    else
      let m := tms.getD i default
      let w := trim m.word
      if strIncludes tokText w && strStartsWith tokText (acc ++ w) then
        let collected' := collected ++ [i]
        let acc' := acc ++ w
        let used' := setAdd used i
        if acc' = tokText then
          let first := tms.getD (collected'.headD 0) default
          let last := tms.getD ((collected'.getLast?).getD 0) default
          (some (first.segmentIndex, first.start, last.start + last.duration),
           used')
        else phaseBScan tokText tms rest collected' acc' used'
      else if collected ≠ [] then
        phaseBScan tokText tms rest [] [] (releaseAll collected used)
      else phaseBScan tokText tms rest collected acc used

/-- Second pass (lines 132–199): compound accumulation over every token not
already present in the mapping list. -/
def phaseB (tokens : List Token) (tms : List SegMapping)
    (ms : List TokenMapping) (used : List ℕ) : List TokenMapping × List ℕ :=
  (List.range tokens.length).foldl
    (fun acc ti =>
      if acc.1.any (fun m => m.tokenIndex = ti) then acc
      else
        let t := tokens.getD ti default
        match phaseBScan t.text tms (List.range tms.length) [] [] acc.2 with
        | (some (si, s, e), used') => (acc.1 ++ [⟨ti, si, t.text, s, e⟩], used')
        | (none, used') => (acc.1, used'))
    (ms, used)

/-- Stable insertion placing `x` after every element with key `≤ x`'s key —
the model of the (stable) `Array.prototype.sort` comparator `a.start - b.start`. -/
def insertByStart (x : TokenMapping) : List TokenMapping → List TokenMapping
  | [] => [x]
  | y :: ys => if y.start ≤ x.start then y :: insertByStart x ys else x :: y :: ys

/-- `mappings.sort((a, b) => a.start - b.start)`. -/
def sortByStart (l : List TokenMapping) : List TokenMapping :=
  l.foldl (fun acc x => insertByStart x acc) []

/-- Stable insertion for the comparator `a.tokenIndex - b.tokenIndex`. -/
def insertByTokenIndex (x : TokenMapping) :
    List TokenMapping → List TokenMapping
  | [] => [x]
  | y :: ys =>
    if y.tokenIndex ≤ x.tokenIndex then y :: insertByTokenIndex x ys
    else x :: y :: ys

/-- `[...mappings].sort((a, b) => a.tokenIndex - b.tokenIndex)`. -/
def sortByTokenIndex (l : List TokenMapping) : List TokenMapping :=
  l.foldl (fun acc x => insertByTokenIndex x acc) []

/-- `Math.max(...)` over a list, as used for `totalDuration`
(the enclosing ternary yields 0 for an empty list). -/
def maxList : List ℚ → ℚ
  | [] => 0
  | x :: xs => xs.foldl max x

/-- Third pass, one token (lines 216–286): punctuation anchoring,
interpolation between neighbours, extrapolation, or uniform fallback. -/
def gapFillStep (tokens : List Token) (sorted : List TokenMapping)
    (mapped : List ℕ) (totalDuration : ℚ)
    (acc : List TokenMapping) (ti : ℕ) : List TokenMapping :=
  if ti ∈ mapped then acc
  else
    let t := tokens.getD ti default
    let prev := (sorted.filter (fun m => decide (m.tokenIndex < ti))).getLast?
    let next := sorted.find? (fun m => decide (ti < m.tokenIndex))
    if isPunctuationToken t.text then
      let estStart : ℚ :=
        match prev, next with
        | some p, _ => p.stop
        | none, some n => max 0 (n.start - 50)
        | none, none => 0
      acc ++ [⟨ti, -1, t.text, estStart, estStart + 50⟩]
    else
      match prev, next with
      | some p, some n =>
        let gap : ℚ := (n.tokenIndex : ℚ) - (p.tokenIndex : ℚ)
        let pos : ℚ := (ti : ℚ) - (p.tokenIndex : ℚ)
        let progress := pos / gap
        let timeGap := n.start - p.stop
        let estStart := p.stop + progress * timeGap
        acc ++ [⟨ti, -1, t.text, estStart, estStart + timeGap / gap⟩]
      | some p, none =>
        let avg := min 500 (totalDuration / (tokens.length : ℚ))
        acc ++ [⟨ti, -1, t.text, p.stop, p.stop + avg⟩]
      | none, some n =>
        let avg := min 500 (totalDuration / (tokens.length : ℚ))
        let estStart := max 0 (n.start - avg)
        acc ++ [⟨ti, -1, t.text, estStart, estStart + avg⟩]
      | none, none =>
        let avg := totalDuration / (tokens.length : ℚ)
        let estStart := ((ti : ℚ) / (tokens.length : ℚ)) * totalDuration
        acc ++ [⟨ti, -1, t.text, estStart, estStart + avg⟩]

/-- `totalDuration` (lines 207–208): the max over `start + duration`, with 0
for an empty mapping list. -/
def totalDurationOf (tms : List SegMapping) : ℚ :=
  maxList (tms.map (fun m => m.start + m.duration))

/-- Third pass (lines 211–287): gap filling over every still-unmapped token,
followed by the final re-sort (line 305).  `sortedMappings` and the
`mappedTokens` set are snapshots of the Phase A/B result `ms`. -/
def gapFill (tokens : List Token) (tms : List SegMapping)
    (ms : List TokenMapping) : List TokenMapping :=
  sortByStart
    ((List.range tokens.length).foldl
      (gapFillStep tokens (sortByTokenIndex ms)
        (ms.map (fun m => m.tokenIndex)) (totalDurationOf tms)) ms)

/-- Uniform-distribution fallback (lines 288–302) when Phases A and B bound
nothing, followed by the final re-sort (line 305). -/
def uniformFallback (tokens : List Token) (tms : List SegMapping) :
    List TokenMapping :=
  let avg : ℚ :=
    if 0 < totalDurationOf tms then totalDurationOf tms / (tokens.length : ℚ)
    else 500
  sortByStart
    ((List.range tokens.length).map
      (fun ti => ⟨ti, -1, (tokens.getD ti default).text,
                  (ti : ℚ) * avg, ((ti : ℚ) + 1) * avg⟩))

/-- `TokenizationService.createTokenToSegmentMapping` (lines 100–315).
The `segs` argument is accepted but — exactly as in the source — never read.
`ms` is the Phase A + Phase B result sorted by start (line 202). -/
def createTokenToSegmentMapping (tokens : List Token) (segs : List Segment)
    (tms : List SegMapping) : List TokenMapping :=
  let ms := sortByStart (phaseB tokens tms (phaseA tokens tms).1
    (phaseA tokens tms).2).1
  if 0 < ms.length then gapFill tokens tms ms else uniformFallback tokens tms

/-! ## Playback locator (`getTokenAtTime`, lines 320–331) -/

/-- `TokenizationService.getTokenAtTime`: first mapping whose closed interval
contains the query time, else −1. -/
def getTokenAtTime (ms : List TokenMapping) (t : ℚ) : ℤ :=
  match ms.find? (fun m => decide (m.start ≤ t) && decide (t ≤ m.stop)) with
  | some m => (m.tokenIndex : ℤ)
  | none => -1

/-! ## Concrete inputs used by the claim theorems and witnesses -/

/-- C1 input: one token `"好"`. -/
def c1Toks : List Token := [⟨['好'], none, 0⟩]

/-- C1 input: two boundary mappings that both carry the word `"好"`. -/
def c1Tms : List SegMapping := [⟨0, 0, 100, ['好']⟩, ⟨1, 100, 100, ['好']⟩]

/-- C2 input: three single-character tokens. -/
def c2Toks : List Token := [⟨['你'], none, 0⟩, ⟨['我'], none, 1⟩, ⟨['他'], none, 2⟩]

/-- C2 input: two well-formed mappings (non-negative, start-sorted) whose
first interval ends after the second one starts. -/
def c2Tms : List SegMapping := [⟨0, 0, 500, ['你']⟩, ⟨1, 100, 100, ['他']⟩]

/-- C3 input: two segments. -/
def c3Segs : List Segment := [⟨['好'], 0, 1, 0⟩, ⟨['吗'], 1, 2, 1⟩]

/-- C3 input: a first event matching no segment, then an event whose word
matches the second segment. -/
def c3Bs : List Boundary := [⟨['X'], 0, 100⟩, ⟨['吗'], 100, 100⟩]

/-- C4 vocabulary entry for `"北京"`. -/
def c4WordBJ : Word := ⟨1, ['北', '京'], [], [], 1⟩

/-- C4 vocabulary entry for `"北"`. -/
def c4WordB : Word := ⟨2, ['北'], [], [], 1⟩

/-- C5/C6 token `"欢迎"`. -/
def c5Toks : List Token := [⟨['欢', '迎'], none, 0⟩]

/-- C6 input: accumulation of `"欢"` is broken by `"X"`, after which the scan
meets `"欢"`, `"迎"` again. -/
def c6Tms : List SegMapping :=
  [⟨0, 0, 100, ['欢']⟩, ⟨1, 100, 100, ['X']⟩, ⟨2, 200, 100, ['欢']⟩,
   ⟨3, 300, 100, ['迎']⟩]

/-- C7 input: a single token, with no boundary mappings at all. -/
def c7Toks : List Token := [⟨['你', '好'], none, 0⟩]

/-- C8 input: start-sorted mappings whose first interval out-lives the second. -/
def c8Ms : List TokenMapping :=
  [⟨0, 0, ['a'], 0, 1000⟩, ⟨1, 0, ['b'], 100, 200⟩]

/-- C8 witness input: disjoint sorted intervals. -/
def c8GoodMs : List TokenMapping :=
  [⟨0, 0, ['a'], 0, 100⟩, ⟨1, 0, ['b'], 150, 200⟩]

/-- C9 input: one raw event with a negative tick duration. -/
def c9Events : List RawEvent := [⟨['好'], 0, -10000⟩]

/-! ## Claim theorems -/

/-- Claim C1 (code bug): totality of the aligner fails.  With one token
`"好"` and two boundary mappings both bound to the word `"好"`, the first
pass binds *both* mappings to token 0 (it never checks whether a token is
already mapped), so the output has two TokenMappings for one token and
token index 0 appears twice. -/
theorem c1_totality_failure :
    (createTokenToSegmentMapping c1Toks [] c1Tms).length = 2 ∧
    c1Toks.length = 1 ∧
    (createTokenToSegmentMapping c1Toks [] c1Tms).map
      (fun m => m.tokenIndex) = [0, 0] := by
  decide

unseal Rat.add Rat.mul Rat.sub Rat.inv in
/-- Claim C2, counterexample: even for non-negative, start-sorted input
mappings, the interpolated gap-fill mapping of token 1 gets the interval
`[300, 100]`, violating `start ≤ end`. -/
theorem c2_interval_validity_counterexample :
    (∀ sm ∈ c2Tms, 0 ≤ sm.start ∧ 0 ≤ sm.duration) ∧
    createTokenToSegmentMapping c2Toks [] c2Tms =
      [⟨0, 0, ['你'], 0, 500⟩, ⟨2, 1, ['他'], 100, 200⟩,
       ⟨1, -1, ['我'], 300, 100⟩] ∧
    ∃ m ∈ createTokenToSegmentMapping c2Toks [] c2Tms, m.stop < m.start := by
  refine ⟨by decide, by decide, ?_⟩
  decide

/-- Claim C3, counterexample: after the first event fails to match any
remaining segment the cursor is exhausted, so the second event — whose word
does match the second segment — is dropped as well and the mapper returns
no SegmentMappings at all (the claim would predict one binding). -/
theorem c3_cursor_counterexample :
    mapTTSBoundaries c3Segs c3Bs = [] ∧
    segMatch (c3Segs.getD 1 default).text (trim (c3Bs.getD 1 default).word)
      = true := by
  decide

unseal Rat.add Rat.mul Rat.sub Rat.inv in
/-- Claim C5: compound accumulation success.  For the token `"欢迎"` and two
consecutive unused mappings carrying `"欢"` and `"迎"` — with arbitrary
segment indices, starts and durations — Phase B binds the token to the
interval from the first mapping's start to the last mapping's
start + duration, carrying the first mapping's segmentIndex; in particular
`{"欢",0,200}`,`{"迎",200,180}` yields `[0, 380]` with segmentIndex 0. -/
theorem c5_compound_accumulation :
    (∀ (s₁ s₂ d₁ d₂ : ℚ) (i₁ i₂ : ℤ),
      createTokenToSegmentMapping c5Toks []
        [⟨i₁, s₁, d₁, ['欢']⟩, ⟨i₂, s₂, d₂, ['迎']⟩] =
      [⟨0, i₁, ['欢', '迎'], s₁, s₂ + d₂⟩]) ∧
    createTokenToSegmentMapping c5Toks []
        [⟨0, 0, 200, ['欢']⟩, ⟨1, 200, 180, ['迎']⟩] =
      [⟨0, 0, ['欢', '迎'], 0, 380⟩] := by
  refine ⟨fun s₁ s₂ d₁ d₂ i₁ i₂ => rfl, by decide⟩

unseal Rat.add Rat.mul Rat.sub Rat.inv in
/-- Claim C6, counterexample: with mappings `欢, X, 欢, 迎`, the accumulation
for token `"欢迎"` is broken by `"X"`, yet Phase B does not move on to the
next token: it restarts from the later mappings and successfully binds the
token to `[200, 400]` with the evidenced segmentIndex 2 (an estimated
mapping would carry segmentIndex −1). -/
theorem c6_phaseB_restart_counterexample :
    createTokenToSegmentMapping c5Toks [] c6Tms =
      [⟨0, 2, ['欢', '迎'], 200, 400⟩] := by
  decide

unseal Rat.add Rat.mul Rat.sub Rat.inv in
/-- Claim C7, counterexample: with zero boundary mappings (total duration 0)
the single token does not receive the interval `[0, 0]`: the fallback uses a
fixed 500 ms default slot, yielding `[0, 500]`. -/
theorem c7_zero_duration_counterexample :
    createTokenToSegmentMapping c7Toks [] [] =
      [⟨0, -1, ['你', '好'], 0, 500⟩] ∧
    ∃ m ∈ createTokenToSegmentMapping c7Toks [] [],
      ¬(m.start = 0 ∧ m.stop = 0) := by
  exact ⟨by decide, by decide⟩

unseal Rat.add Rat.mul Rat.sub Rat.inv in
/-- Claim C8, counterexample: the mappings are sorted by start, the query
time 500 lies outside `[first.start, last.end] = [0, 200]`, yet the locator
returns token 0, because the first interval `[0, 1000]` still contains 500
(start-sortedness does not bound the ends). -/
theorem c8_locator_counterexample :
    List.Pairwise (fun a b => a.start ≤ b.start) c8Ms ∧
    (c8Ms.getLastD default).stop < 500 ∧
    getTokenAtTime c8Ms 500 = 0 := by
  decide

unseal Rat.add Rat.mul Rat.sub Rat.inv in
/-- Claim C9, counterexample: the word-boundary handler performs no
validation: a raw event with negative tick duration is converted (÷10,000)
and appended unchanged, leaving a negative duration in the emitted list —
neither clamped to 0 nor rejected. -/
theorem c9_no_validation_counterexample :
    collectWordTimings c9Events = [⟨['好'], 0, -1, 0⟩] ∧
    ∃ w ∈ collectWordTimings c9Events, w.duration < 0 := by
  exact ⟨by decide, by decide⟩

/-! ## Tokenizer lemmas (claims C4 and C10) -/

/-- A successful longest-match lookup returns a length between 1 and the cap. -/
theorem findMatch_some_bounds (words : List Word) (cs : Str) :
    ∀ n len w, findMatch words cs n = some (w, len) → 1 ≤ len ∧ len ≤ n := by
  intro n
  induction n with
  | zero => intro len w h; simp [findMatch] at h
  | succ m ih =>
    intro len w h
    rw [findMatch] at h
    cases hl : lookupWord words (cs.take (m + 1)) with
    | some w' =>
      rw [hl] at h
      cases h
      omega
    | none =>
      rw [hl] at h
      have := ih len w h
      omega

/-- If length `len` is a vocabulary hit and every longer length up to the cap
misses, the downward-scanning loop returns exactly that hit. -/
theorem findMatch_eq_some (words : List Word) (cs : Str) :
    ∀ n len w, 1 ≤ len → len ≤ n →
      lookupWord words (cs.take len) = some w →
      (∀ l, len < l → l ≤ n → lookupWord words (cs.take l) = none) →
      findMatch words cs n = some (w, len) := by
  intro n
  induction n with
  | zero => intro len w h1 h2 _ _; omega
  | succ m ih =>
    intro len w h1 h2 hw hmax
    by_cases hlen : len = m + 1
    · subst hlen
      rw [findMatch, hw]
    · have hlt : len < m + 1 := lt_of_le_of_ne h2 hlen
      have hnone : lookupWord words (cs.take (m + 1)) = none :=
        hmax (m + 1) hlt (le_refl _)
      rw [findMatch, hnone]
      exact ih len w h1 (by omega) hw
        (fun l hl hl' => hmax l hl (by omega))

/-- Round-trip of the main tokenizer loop: with enough fuel, the token texts
concatenate back to the input. -/
theorem tokenizeGo_join (words : List Word) (maxLen : ℕ) :
    ∀ fuel cs idx, cs.length ≤ fuel →
      ((tokenizeGo words maxLen fuel cs idx).map Token.text).flatten = cs := by
  intro fuel
  induction fuel with
  | zero =>
    intro cs idx h
    have : cs = [] := List.eq_nil_of_length_eq_zero (by omega)
    subst this
    simp [tokenizeGo]
  | succ f ih =>
    intro cs idx h
    cases cs with
    | nil => simp [tokenizeGo]
    | cons c cs' =>
      rw [tokenizeGo]
      by_cases hHan : isHan c
      · rw [if_pos hHan]
        cases hm : findMatch words (c :: cs') (min maxLen (cs'.length + 1)) with
        | some p =>
          obtain ⟨w, len⟩ := p
          have hb := findMatch_some_bounds words (c :: cs') _ len w hm
          simp only [List.map_cons, List.flatten_cons]
          rw [ih ((c :: cs').drop len) (idx + 1)
            (by simp [List.length_drop] at *; omega)]
          exact List.take_append_drop len (c :: cs')
        | none =>
          simp only [List.map_cons, List.flatten_cons]
          rw [ih cs' (idx + 1) (by simpa using Nat.le_of_succ_le_succ h)]
          rfl
      · rw [if_neg hHan]
        simp only [List.map_cons, List.flatten_cons]
        rw [ih (cs'.dropWhile (fun d => !isHan d)) (idx + 1)
          (le_trans (List.dropWhile_sublist _).length_le
            (by simpa using Nat.le_of_succ_le_succ h))]
        simp [List.takeWhile_append_dropWhile]

/-- Claim C10: tokenizer round-trip.  For every input text and vocabulary,
concatenating the texts of the returned tokens, in order, yields exactly the
original input — every character is consumed by exactly one token. -/
theorem c10_tokenize_round_trip (content : Str) (words : List Word) :
    ((tokenize content words).map Token.text).flatten = content :=
  tokenizeGo_join words (buildLookupMax words) content.length content 0
    (le_refl _)

/-- Claim C4: tokenizer longest-match.  At a CJK-ideograph position, if some
substring length `len` (with `1 ≤ len ≤ min(maxVocabWordLength, remaining)`)
is a vocabulary key and every longer candidate length up to the cap is not,
the tokenizer emits exactly that longest match as the next token, carrying
the matched vocabulary entry. -/
theorem c4_tokenizer_longest_match (words : List Word) (c : Char) (cs : Str)
    (w : Word) (len : ℕ)
    (hHan : isHan c = true)
    (h1 : 1 ≤ len)
    (h2 : len ≤ min (buildLookupMax words) (cs.length + 1))
    (hw : lookupWord words ((c :: cs).take len) = some w)
    (hmax : ∀ l, len < l → l ≤ min (buildLookupMax words) (cs.length + 1) →
      lookupWord words ((c :: cs).take l) = none) :
    (tokenize (c :: cs) words).head? = some ⟨(c :: cs).take len, some w, 0⟩ := by
  have hfm : findMatch words (c :: cs)
      (min (buildLookupMax words) (cs.length + 1)) = some (w, len) :=
    findMatch_eq_some words (c :: cs) _ len w h1 h2 hw hmax
  show (tokenizeGo words (buildLookupMax words) (c :: cs).length
    (c :: cs) 0).head? = _
  rw [List.length_cons, tokenizeGo, if_pos hHan, hfm]
  rfl

/-- Claim C4 witness: with vocabulary `{"北京", "北"}` and text `"北京"`, the
tokenizer yields the single token `"北京"` (not `"北"` + `"京"`). -/
theorem c4_tokenizer_longest_match_witness :
    (tokenize ['北', '京'] [c4WordBJ, c4WordB]).head? =
      some ⟨['北', '京'], some c4WordBJ, 0⟩ ∧
    tokenize ['北', '京'] [c4WordBJ, c4WordB] =
      [⟨['北', '京'], some c4WordBJ, 0⟩] := by
  refine ⟨c4_tokenizer_longest_match [c4WordBJ, c4WordB] '北' ['京'] c4WordBJ 2
    (by decide) (by decide) (by decide) (by decide) ?_, by decide⟩
  intro l hl hl'
  have hcap : l ≤ 2 := le_of_le_of_eq hl' (by decide)
  omega

/-! ## Segment-mapper lemmas (claim C3) -/

/-- If no segment at or after the cursor matches, the inner scan finds none. -/
theorem findSeg_eq_none (segs : List Segment) (w : Str) (cursor : ℕ)
    (h : ∀ j, cursor ≤ j → j < segs.length →
      segMatch (segs.getD j default).text w = false) :
    findSeg segs w cursor = none := by
  apply List.find?_eq_none.mpr
  intro j hj
  rw [List.mem_range'_1] at hj
  simp only [Bool.not_eq_true]
  exact h j hj.1 (by omega)

/-- Once the cursor has run past the last segment, every remaining event is
dropped and the mapper produces nothing. -/
theorem mapGo_nil_of_exhausted (segs : List Segment) :
    ∀ bs cursor, segs.length ≤ cursor → mapGo segs bs cursor = [] := by
  intro bs
  induction bs with
  | nil => intro cursor _; rfl
  | cons b rest ih =>
    intro cursor h
    have hz : segs.length - cursor = 0 := by omega
    have hnone : findSeg segs (trim b.word) cursor = none := by
      unfold findSeg
      rw [hz]
      rfl
    rw [mapGo, hnone]
    exact ih segs.length (le_refl _)

/-- Claim C3 (amended): when an event's word matches no segment among those
remaining at or after the cursor, that event is dropped and the scan leaves
the cursor past ALL remaining segments, so every later event is dropped as
well — the mapper returns no further SegmentMappings at all. -/
theorem c3_failed_match_drops_rest (segs : List Segment) (b : Boundary)
    (rest : List Boundary) (cursor : ℕ)
    (h : ∀ j, cursor ≤ j → j < segs.length →
      segMatch (segs.getD j default).text (trim b.word) = false) :
    mapGo segs (b :: rest) cursor = [] := by
  rw [mapGo, findSeg_eq_none segs _ cursor h]
  exact mapGo_nil_of_exhausted segs rest segs.length (le_refl _)

/-- Claim C3 witness: on the concrete two-segment input whose first event
matches nothing, the whole mapper output is empty. -/
theorem c3_failed_match_drops_rest_witness :
    mapTTSBoundaries c3Segs c3Bs = [] := by
  have h : ∀ j, 0 ≤ j → j < c3Segs.length →
      segMatch (c3Segs.getD j default).text
        (trim (⟨['X'], 0, 100⟩ : Boundary).word) = false := by
    intro j _ hj
    have hj2 : j < 2 := by simpa [c3Segs] using hj
    interval_cases j <;> decide
  exact c3_failed_match_drops_rest c3Segs ⟨['X'], 0, 100⟩
    [⟨['吗'], 100, 100⟩] 0 h

/-! ## Boundary-normalizer lemmas (claim C9) -/

/-- The handler's successive pushes amount to a `map` over the events. -/
theorem collectWordTimings_push (events : List RawEvent) :
    ∀ acc : List WordTiming,
      events.foldl (fun a e =>
        a ++ [⟨e.text, e.audioOffset / 10000, e.duration / 10000,
              e.audioOffset⟩]) acc =
      acc ++ events.map (fun e =>
        ⟨e.text, e.audioOffset / 10000, e.duration / 10000, e.audioOffset⟩) := by
  induction events with
  | nil => intro acc; simp
  | cons e rest ih =>
    intro acc
    simp only [List.foldl_cons, List.map_cons]
    rw [ih]
    simp

/-- Claim C9 (amended): the word-boundary handler validates nothing — it
emits exactly one WordTiming per raw event, in order, with the offset and
duration divided by 10,000 and otherwise unchanged; in particular an event
with negative duration yields an emitted timing with negative duration. -/
theorem c9_passthrough (events : List RawEvent) :
    collectWordTimings events =
      events.map (fun e =>
        ⟨e.text, e.audioOffset / 10000, e.duration / 10000, e.audioOffset⟩) ∧
    ∀ e ∈ events, e.duration < 0 →
      ∃ wt ∈ collectWordTimings events, wt.duration < 0 := by
  constructor
  · exact collectWordTimings_push events []
  · intro e he hneg
    refine ⟨⟨e.text, e.audioOffset / 10000, e.duration / 10000,
      e.audioOffset⟩, ?_, ?_⟩
    · show _ ∈ collectWordTimings events
      have hrw : collectWordTimings events = events.map (fun e =>
          ⟨e.text, e.audioOffset / 10000, e.duration / 10000,
           e.audioOffset⟩) := collectWordTimings_push events []
      rw [hrw]
      exact List.mem_map_of_mem _ he
    · exact div_neg_of_neg_of_pos hneg (by norm_num)

/-- Claim C9 witness: the negative-duration event is emitted with a
negative duration. -/
theorem c9_passthrough_witness :
    ∃ wt ∈ collectWordTimings c9Events, wt.duration < 0 :=
  (c9_passthrough c9Events).2 ⟨['好'], 0, -10000⟩ (by decide) (by norm_num)

/-! ## Phase-B lemmas (claim C6) -/

/-- Claim C6 (amended): when the next unused candidate breaks the prefix
property during a non-empty accumulation, all tentatively accumulated
mappings are released back to the unused set and the scan *continues* with
the following mappings, restarting the accumulation from scratch for the
same token — it does not move on to the next token. -/
theorem c6_release_and_restart (tokText : Str) (tms : List SegMapping)
    (i : ℕ) (rest collected : List ℕ) (acc : Str) (used : List ℕ)
    (hni : i ∉ used)
    (hbreak : (strIncludes tokText (trim (tms.getD i default).word) &&
      strStartsWith tokText (acc ++ trim (tms.getD i default).word)) = false)
    (hcol : collected ≠ []) :
    phaseBScan tokText tms (i :: rest) collected acc used =
      phaseBScan tokText tms rest [] [] (releaseAll collected used) := by
  rw [phaseBScan]
  rw [if_neg hni]
  simp only [hbreak, Bool.false_eq_true, if_false]
  rw [if_pos hcol]

/-- Claim C6 witness: in the 欢/X/欢/迎 run, meeting `"X"` with `"欢"`
accumulated releases index 0 and continues the scan at the next mapping. -/
theorem c6_release_and_restart_witness :
    phaseBScan ['欢', '迎'] c6Tms [1, 2, 3] [0] ['欢'] [0] =
      phaseBScan ['欢', '迎'] c6Tms [2, 3] [] [] (releaseAll [0] [0]) :=
  c6_release_and_restart ['欢', '迎'] c6Tms 1 [2, 3] [0] ['欢'] [0]
    (by decide) (by decide) (by decide)

/-! ## Locator lemmas (claim C8) -/

/-- If no mapping's closed interval contains the query time, the locator
yields −1. -/
theorem getTokenAtTime_eq_neg_one (ms : List TokenMapping) (t : ℚ)
    (h : ∀ m ∈ ms, ¬(m.start ≤ t ∧ t ≤ m.stop)) :
    getTokenAtTime ms t = -1 := by
  unfold getTokenAtTime
  rw [List.find?_eq_none.mpr]
  intro m hm
  simp only [Bool.and_eq_true, decide_eq_true_eq, not_and]
  intro h1 h2
  exact h m hm ⟨h1, h2⟩

/-- If exactly one mapping contains the query time, the locator returns its
token index. -/
theorem getTokenAtTime_unique :
    ∀ (ms : List TokenMapping) (m : TokenMapping) (t : ℚ), m ∈ ms →
      m.start ≤ t → t ≤ m.stop →
      (∀ m' ∈ ms, m'.start ≤ t ∧ t ≤ m'.stop → m' = m) →
      getTokenAtTime ms t = (m.tokenIndex : ℤ) := by
  intro ms
  induction ms with
  | nil => intro m t hm; cases hm
  | cons x rest ih =>
    intro m t hm h1 h2 huniq
    by_cases hx : x.start ≤ t ∧ t ≤ x.stop
    · have hxm : x = m := huniq x (List.mem_cons_self x rest) hx
      unfold getTokenAtTime
      rw [List.find?_cons_of_pos _ (by simp [hx.1, hx.2])]
      rw [hxm]
    · have hmr : m ∈ rest := by
        cases List.mem_cons.mp hm with
        | inl h => exact absurd ⟨h ▸ h1, h ▸ h2⟩ (h ▸ hx)
        | inr h => exact h
      have hstep : getTokenAtTime (x :: rest) t = getTokenAtTime rest t := by
        unfold getTokenAtTime
        rw [List.find?_cons_of_neg _ (by simpa [Bool.and_eq_true] using hx)]
      rw [hstep]
      exact ih m t hmr h1 h2 (fun m' hm' hc => huniq m' (List.mem_cons_of_mem _ hm') hc)

/-- The default-carrying last element of a non-empty list does not depend on
the default. -/
theorem getLastD_irrel :
    ∀ (l : List TokenMapping), l ≠ [] → ∀ d d', l.getLastD d = l.getLastD d' := by
  intro l
  induction l with
  | nil => intro h; exact absurd rfl h
  | cons x rest ih =>
    intro _ d d'
    cases rest with
    | nil => rfl
    | cons y r => simp only [List.getLastD_cons]

/-- The default-carrying last element of a non-empty list is a member. -/
theorem getLastD_mem :
    ∀ (l : List TokenMapping), l ≠ [] → ∀ d, l.getLastD d ∈ l := by
  intro l
  induction l with
  | nil => intro h; exact absurd rfl h
  | cons x rest ih =>
    intro _ d
    cases rest with
    | nil => simp
    | cons y r =>
      rw [List.getLastD_cons]
      exact List.mem_cons_of_mem _ (ih (by simp) x)

/-- Under a non-decreasing `end` sequence, every element's `end` is at most
the last element's `end`. -/
theorem stop_le_getLastD :
    ∀ (ms : List TokenMapping),
      List.Pairwise (fun a b => a.stop ≤ b.stop) ms →
      ∀ m ∈ ms, m.stop ≤ (ms.getLastD default).stop := by
  intro ms
  induction ms with
  | nil => intro _ m hm; cases hm
  | cons x rest ih =>
    intro hp m hm
    rcases List.pairwise_cons.mp hp with ⟨hx, hrest⟩
    cases List.mem_cons.mp hm with
    | inl h =>
      subst h
      cases rest with
      | nil => simp
      | cons y r =>
        rw [List.getLastD_cons, getLastD_irrel (y :: r) (by simp) m default]
        exact hx _ (getLastD_mem (y :: r) (by simp) default)
    | inr h =>
      have := ih hrest m h
      cases rest with
      | nil => cases h
      | cons y r =>
        rw [List.getLastD_cons, getLastD_irrel (y :: r) (by simp) x default]
        exact this

/-- Claim C8 (amended): provided the mappings are sorted by `start` AND their
`end` values are also non-decreasing, the locator returns −1 for any time
before the first start or after the last end, and returns the unique
containing token index whenever exactly one closed interval contains the
query time. -/
theorem c8_locator_bounds (ms : List TokenMapping) (t : ℚ)
    (hne : ms ≠ [])
    (hstart : List.Pairwise (fun a b => a.start ≤ b.start) ms)
    (hstop : List.Pairwise (fun a b => a.stop ≤ b.stop) ms) :
    (t < (ms.headD default).start → getTokenAtTime ms t = -1) ∧
    ((ms.getLastD default).stop < t → getTokenAtTime ms t = -1) ∧
    (∀ m ∈ ms, m.start ≤ t → t ≤ m.stop →
      (∀ m' ∈ ms, m'.start ≤ t ∧ t ≤ m'.stop → m' = m) →
      getTokenAtTime ms t = (m.tokenIndex : ℤ)) := by
  refine ⟨?_, ?_, ?_⟩
  · intro hlt
    apply getTokenAtTime_eq_neg_one
    intro m hm hc
    cases ms with
    | nil => cases hm
    | cons x rest =>
      rcases List.pairwise_cons.mp hstart with ⟨hx, _⟩
      have hxm : x.start ≤ m.start := by
        cases List.mem_cons.mp hm with
        | inl h => exact h ▸ le_refl _
        | inr h => exact hx m h
      simp only [List.headD_cons] at hlt
      exact absurd hc.1 (not_le.mpr (lt_of_lt_of_le hlt hxm))
  · intro hlt
    apply getTokenAtTime_eq_neg_one
    intro m hm hc
    have := stop_le_getLastD ms hstop m hm
    exact absurd hc.2 (not_le.mpr (lt_of_le_of_lt this hlt))
  · intro m hm h1 h2 huniq
    exact getTokenAtTime_unique ms m t hm h1 h2 huniq

/-- Claim C8 witness: on disjoint sorted intervals `[0,100]`, `[150,200]`,
the locator returns −1 at time 300 (past the last end) and token 0 at
time 50 (inside exactly the first interval). -/
theorem c8_locator_bounds_witness :
    getTokenAtTime c8GoodMs 300 = -1 ∧ getTokenAtTime c8GoodMs 50 = 0 := by
  have h1 := (c8_locator_bounds c8GoodMs 300 (by decide) (by decide)
    (by decide)).2.1 (by decide)
  have h2 := (c8_locator_bounds c8GoodMs 50 (by decide) (by decide)
    (by decide)).2.2 ⟨0, 0, ['a'], 0, 100⟩ (by decide) (by decide) (by decide)
    (by decide)
  exact ⟨h1, by simpa using h2⟩

/-! ## Uniform-fallback lemmas (claim C7) -/

/-- Phase A over an empty mapping list binds nothing. -/
theorem phaseA_nil_tms (tokens : List Token) : phaseA tokens [] = ([], []) :=
  rfl

/-- Phase B over an empty mapping list binds nothing and leaves the used set
unchanged. -/
theorem phaseB_nil_tms (tokens : List Token) :
    ∀ u : List ℕ, phaseB tokens [] [] u = ([], u) := by
  simp only [phaseB]
  generalize List.range tokens.length = l
  induction l with
  | nil => intro u; rfl
  | cons i rest ih =>
    intro u
    rw [List.foldl_cons]
    exact ih u

/-- Inserting an element no smaller than every element of the list appends it. -/
theorem insertByStart_append (x : TokenMapping) :
    ∀ l : List TokenMapping, (∀ y ∈ l, y.start ≤ x.start) →
      insertByStart x l = l ++ [x] := by
  intro l
  induction l with
  | nil => intro _; rfl
  | cons y ys ih =>
    intro h
    rw [insertByStart, if_pos (h y (List.mem_cons_self y ys))]
    rw [ih (fun z hz => h z (List.mem_cons_of_mem _ hz))]
    rfl

/-- The stable insertion sort leaves an already start-sorted list unchanged. -/
theorem sortByStart_pairwise_id :
    ∀ l : List TokenMapping,
      List.Pairwise (fun a b => a.start ≤ b.start) l → sortByStart l = l := by
  have aux : ∀ (l acc : List TokenMapping),
      (∀ y ∈ acc, ∀ z ∈ l, y.start ≤ z.start) →
      List.Pairwise (fun a b => a.start ≤ b.start) l →
      l.foldl (fun a x => insertByStart x a) acc = acc ++ l := by
    intro l
    induction l with
    | nil => intro acc _ _; simp
    | cons x rest ih =>
      intro acc hcross hp
      rcases List.pairwise_cons.mp hp with ⟨hx, hrest⟩
      rw [List.foldl_cons,
        insertByStart_append x acc
          (fun y hy => hcross y hy x (List.mem_cons_self x rest)),
        ih (acc ++ [x]) ?_ hrest]
      · simp
      · intro y hy z hz
        rcases List.mem_append.mp hy with hy' | hy'
        · exact hcross y hy' z (List.mem_cons_of_mem _ hz)
        · rw [List.mem_singleton.mp hy']
          exact hx z hz
  intro l hp
  exact (aux l [] (by intro y hy; cases hy) hp).trans (by simp)

/-- Claim C7 (amended): with zero boundary mappings the aligner returns
without error, producing exactly one mapping per token: token `i` receives
the estimated interval `[500·i, 500·(i+1)]` — the fixed 500 ms default slot
used when the total duration is 0 — not `[0, 0]`. -/
theorem c7_uniform_fallback (tokens : List Token) (segs : List Segment) :
    createTokenToSegmentMapping tokens segs [] =
      (List.range tokens.length).map
        (fun ti => ⟨ti, -1, (tokens.getD ti default).text,
                    (ti : ℚ) * 500, ((ti : ℚ) + 1) * 500⟩) := by
  have hB : phaseB tokens [] [] [] = ([], []) := phaseB_nil_tms tokens []
  have hms : sortByStart (phaseB tokens [] (phaseA tokens []).1
      (phaseA tokens []).2).1 = [] := by
    rw [phaseA_nil_tms]
    rw [show (([], []) : List TokenMapping × List ℕ).1 = [] from rfl,
        show (([], []) : List TokenMapping × List ℕ).2 = ([] : List ℕ) from rfl,
        hB]
    rfl
  simp only [createTokenToSegmentMapping, hms]
  rw [if_neg (by simp)]
  have havg : (if 0 < totalDurationOf [] then
      totalDurationOf [] / (tokens.length : ℚ) else 500) = 500 := by
    rw [if_neg]
    simp [totalDurationOf, maxList]
  simp only [uniformFallback, havg]
  apply sortByStart_pairwise_id
  rw [List.pairwise_map]
  apply List.Pairwise.imp ?_ (List.pairwise_lt_range tokens.length)
  intro a b hab
  simp only
  have ha : (a : ℚ) ≤ (b : ℚ) := by exact_mod_cast le_of_lt hab
  nlinarith

/-! ## Interval non-negativity (claim C2) -/

/-- Indexing into a mapping list with the zero default preserves
non-negativity of start and duration. -/
theorem getD_nonneg (tms : List SegMapping)
    (H : ∀ sm ∈ tms, 0 ≤ sm.start ∧ 0 ≤ sm.duration) (i : ℕ) :
    0 ≤ (tms.getD i default).start ∧ 0 ≤ (tms.getD i default).duration := by
  by_cases h : i < tms.length
  · rw [List.getD_eq_getElem tms default h]
    exact H _ (List.getElem_mem h)
  · rw [List.getD_eq_default tms default (by omega)]
    exact ⟨le_refl 0, le_refl 0⟩

/-- Every interval produced by Phase A has non-negative start and end. -/
theorem phaseA_nonneg (tokens : List Token) (tms : List SegMapping)
    (H : ∀ sm ∈ tms, 0 ≤ sm.start ∧ 0 ≤ sm.duration) :
    ∀ m ∈ (phaseA tokens tms).1, 0 ≤ m.start ∧ 0 ≤ m.stop := by
  have aux : ∀ (l : List ℕ) (acc : List TokenMapping × List ℕ),
      (∀ m ∈ acc.1, 0 ≤ m.start ∧ 0 ≤ m.stop) →
      ∀ m ∈ (l.foldl (fun acc i =>
        let m := tms.getD i default
        match tokens.findIdx? (fun t => t.text = trim m.word) with
        | some ti =>
          (acc.1 ++ [⟨ti, m.segmentIndex, (tokens.getD ti default).text,
                      m.start, m.start + m.duration⟩], setAdd acc.2 i)
        | none => acc) acc).1, 0 ≤ m.start ∧ 0 ≤ m.stop := by
    intro l
    induction l with
    | nil => intro acc h; exact h
    | cons i rest ih =>
      intro acc h
      rw [List.foldl_cons]
      apply ih
      cases hfi : tokens.findIdx?
          (fun t => t.text = trim (tms.getD i default).word) with
      | some ti =>
        simp only [hfi]
        intro m hm
        rcases List.mem_append.mp hm with hm' | hm'
        · exact h m hm'
        · rw [List.mem_singleton.mp hm']
          rcases getD_nonneg tms H i with ⟨h1, h2⟩
          exact ⟨h1, add_nonneg h1 h2⟩
      | none => simpa only [hfi] using h
  intro m hm
  exact aux (List.range tms.length) ([], []) (by intro m' hm'; cases hm') m hm

/-- A successful Phase B accumulation yields a non-negative start and end. -/
theorem phaseBScan_some_nonneg (tokText : Str) (tms : List SegMapping)
    (H : ∀ sm ∈ tms, 0 ≤ sm.start ∧ 0 ≤ sm.duration) :
    ∀ (idxs collected : List ℕ) (acc : Str) (used : List ℕ)
      (si : ℤ) (s e : ℚ) (used' : List ℕ),
      phaseBScan tokText tms idxs collected acc used =
        (some (si, s, e), used') → 0 ≤ s ∧ 0 ≤ e := by
  intro idxs
  induction idxs with
  | nil =>
    intro collected acc used si s e used' h
    rw [phaseBScan] at h
    cases h
  | cons i rest ih =>
    intro collected acc used si s e used' h
    rw [phaseBScan] at h
    dsimp only at h
    split at h
    · exact ih _ _ _ _ _ _ _ h
    · split at h
      · split at h
        · injection h with h1 h2
          injection h1 with h1
          injection h1 with ha h1
          injection h1 with hb hc
          subst hb
          subst hc
          rcases getD_nonneg tms H ((collected ++ [i]).headD 0) with ⟨hs, _⟩
          rcases getD_nonneg tms H (((collected ++ [i]).getLast?).getD 0)
            with ⟨hs', hd'⟩
          exact ⟨hs, add_nonneg hs' hd'⟩
        · exact ih _ _ _ _ _ _ _ h
      · split at h
        · exact ih _ _ _ _ _ _ _ h
        · exact ih _ _ _ _ _ _ _ h

/-- Every interval produced by Phase B (on top of intervals already
satisfying the bound) has non-negative start and end. -/
theorem phaseB_nonneg (tokens : List Token) (tms : List SegMapping)
    (ms0 : List TokenMapping) (u0 : List ℕ)
    (H : ∀ sm ∈ tms, 0 ≤ sm.start ∧ 0 ≤ sm.duration)
    (h0 : ∀ m ∈ ms0, 0 ≤ m.start ∧ 0 ≤ m.stop) :
    ∀ m ∈ (phaseB tokens tms ms0 u0).1, 0 ≤ m.start ∧ 0 ≤ m.stop := by
  have aux : ∀ (l : List ℕ) (acc : List TokenMapping × List ℕ),
      (∀ m ∈ acc.1, 0 ≤ m.start ∧ 0 ≤ m.stop) →
      ∀ m ∈ (l.foldl (fun acc ti =>
        if acc.1.any (fun m => m.tokenIndex = ti) then acc
        else
          let t := tokens.getD ti default
          match phaseBScan t.text tms (List.range tms.length) [] [] acc.2 with
          | (some (si, s, e), used') =>
            (acc.1 ++ [⟨ti, si, t.text, s, e⟩], used')
          | (none, used') => (acc.1, used')) acc).1,
        0 ≤ m.start ∧ 0 ≤ m.stop := by
    intro l
    induction l with
    | nil => intro acc h; exact h
    | cons ti rest ih =>
      intro acc h
      rw [List.foldl_cons]
      apply ih
      by_cases hany : acc.1.any (fun m => m.tokenIndex = ti) = true
      · simpa only [if_pos hany] using h
      · rw [if_neg hany]
        cases hscan : phaseBScan (tokens.getD ti default).text tms
            (List.range tms.length) [] [] acc.2 with
        | mk o used' =>
          cases o with
          | some p =>
            obtain ⟨si, s, e⟩ := p
            simp only [hscan]
            intro m hm
            rcases List.mem_append.mp hm with hm' | hm'
            · exact h m hm'
            · rw [List.mem_singleton.mp hm']
              exact phaseBScan_some_nonneg (tokens.getD ti default).text tms H
                _ _ _ _ _ _ _ _ hscan
          | none => simpa only [hscan] using h
  intro m hm
  exact aux (List.range tokens.length) (ms0, u0) h0 m hm

/-- Stable insertion is a permutation of consing. -/
theorem insertByStart_perm (x : TokenMapping) :
    ∀ l : List TokenMapping, List.Perm (insertByStart x l) (x :: l) := by
  intro l
  induction l with
  | nil => rfl
  | cons y ys ih =>
    rw [insertByStart]
    split
    · exact (List.Perm.cons y ih).trans (List.Perm.swap x y ys)
    · rfl

/-- The start-sort permutes its input. -/
theorem sortByStart_perm :
    ∀ l : List TokenMapping, List.Perm (sortByStart l) l := by
  have aux : ∀ (l acc : List TokenMapping),
      List.Perm (l.foldl (fun a x => insertByStart x a) acc) (acc ++ l) := by
    intro l
    induction l with
    | nil => intro acc; simp
    | cons x rest ih =>
      intro acc
      rw [List.foldl_cons]
      refine (ih (insertByStart x acc)).trans ?_
      refine (List.Perm.append_right rest (insertByStart_perm x acc)).trans ?_
      exact List.perm_middle.symm
  intro l
  simpa using aux l []

/-- Stable insertion by token index is a permutation of consing. -/
theorem insertByTokenIndex_perm (x : TokenMapping) :
    ∀ l : List TokenMapping, List.Perm (insertByTokenIndex x l) (x :: l) := by
  intro l
  induction l with
  | nil => rfl
  | cons y ys ih =>
    rw [insertByTokenIndex]
    split
    · exact (List.Perm.cons y ih).trans (List.Perm.swap x y ys)
    · rfl

/-- The token-index sort permutes its input. -/
theorem sortByTokenIndex_perm :
    ∀ l : List TokenMapping, List.Perm (sortByTokenIndex l) l := by
  have aux : ∀ (l acc : List TokenMapping),
      List.Perm (l.foldl (fun a x => insertByTokenIndex x a) acc) (acc ++ l) := by
    intro l
    induction l with
    | nil => intro acc; simp
    | cons x rest ih =>
      intro acc
      rw [List.foldl_cons]
      refine (ih (insertByTokenIndex x acc)).trans ?_
      refine (List.Perm.append_right rest (insertByTokenIndex_perm x acc)).trans ?_
      exact List.perm_middle.symm
  intro l
  simpa using aux l []

/-- The running maximum of a list of non-negative rationals is non-negative. -/
theorem maxList_nonneg :
    ∀ l : List ℚ, (∀ x ∈ l, 0 ≤ x) → 0 ≤ maxList l := by
  have aux : ∀ (xs : List ℚ) (a : ℚ), 0 ≤ a → 0 ≤ xs.foldl max a := by
    intro xs
    induction xs with
    | nil => intro a h; exact h
    | cons y ys ih =>
      intro a h
      rw [List.foldl_cons]
      exact ih (max a y) (le_trans h (le_max_left a y))
  intro l h
  cases l with
  | nil => exact le_refl 0
  | cons x xs => exact aux xs x (h x (List.mem_cons_self x xs))

/-- `totalDuration` is non-negative for non-negative inputs. -/
theorem totalDurationOf_nonneg (tms : List SegMapping)
    (H : ∀ sm ∈ tms, 0 ≤ sm.start ∧ 0 ≤ sm.duration) :
    0 ≤ totalDurationOf tms := by
  apply maxList_nonneg
  intro x hx
  rcases List.mem_map.mp hx with ⟨sm, hsm, rfl⟩
  rcases H sm hsm with ⟨h1, h2⟩
  exact add_nonneg h1 h2

/-- Convexity bound for the interpolation branch: for `1 ≤ pq` and
`pq + 1 ≤ gq`, both the interpolated start and end are non-negative
whenever the anchoring values are. -/
theorem interp_nonneg (a b pq gq : ℚ) (ha : 0 ≤ a) (hb : 0 ≤ b)
    (h1 : 1 ≤ pq) (h2 : pq + 1 ≤ gq) :
    0 ≤ a + pq / gq * (b - a) ∧ 0 ≤ a + pq / gq * (b - a) + (b - a) / gq := by
  have hg : 0 < gq := by linarith
  have key1 : a + pq / gq * (b - a) = ((gq - pq) * a + pq * b) / gq := by
    field_simp
    ring
  have key2 : a + pq / gq * (b - a) + (b - a) / gq
      = ((gq - pq - 1) * a + (pq + 1) * b) / gq := by
    field_simp
    ring
  constructor
  · rw [key1]
    apply div_nonneg _ hg.le
    have k1 : 0 ≤ (gq - pq) * a :=
      mul_nonneg (by linarith) ha
    have k2 : 0 ≤ pq * b := mul_nonneg (by linarith) hb
    linarith
  · rw [key2]
    apply div_nonneg _ hg.le
    have k1 : 0 ≤ (gq - pq - 1) * a := mul_nonneg (by linarith) ha
    have k2 : 0 ≤ (pq + 1) * b := mul_nonneg (by linarith) hb
    linarith

/-- The nearest preceding mapped token (if any) is a member of the snapshot
and has a strictly smaller token index. -/
theorem prev_facts (sorted : List TokenMapping) (ti : ℕ) (p : TokenMapping)
    (h : (sorted.filter (fun m => decide (m.tokenIndex < ti))).getLast?
      = some p) :
    p ∈ sorted ∧ p.tokenIndex < ti := by
  have hp : p ∈ sorted.filter (fun m => decide (m.tokenIndex < ti)) := by
    rcases List.mem_getLast?_eq_getLast (by rw [h]; rfl) with ⟨hne, rfl⟩
    exact List.getLast_mem hne
  rcases List.mem_filter.mp hp with ⟨h1, h2⟩
  exact ⟨h1, of_decide_eq_true h2⟩

/-- The nearest following mapped token (if any) is a member of the snapshot
and has a strictly larger token index. -/
theorem next_facts (sorted : List TokenMapping) (ti : ℕ) (n : TokenMapping)
    (h : sorted.find? (fun m => decide (ti < m.tokenIndex)) = some n) :
    n ∈ sorted ∧ ti < n.tokenIndex := by
  have hfs := List.find?_some h
  exact ⟨List.mem_of_find?_eq_some h, of_decide_eq_true hfs⟩

/-- Every interval appended by one gap-fill step is non-negative, given
non-negative snapshots and total duration. -/
theorem gapFillStep_nonneg (tokens : List Token) (sorted : List TokenMapping)
    (mapped : List ℕ) (td : ℚ) (acc : List TokenMapping) (ti : ℕ)
    (hsorted : ∀ m ∈ sorted, 0 ≤ m.start ∧ 0 ≤ m.stop)
    (htd : 0 ≤ td)
    (hacc : ∀ m ∈ acc, 0 ≤ m.start ∧ 0 ≤ m.stop) :
    ∀ m ∈ gapFillStep tokens sorted mapped td acc ti,
      0 ≤ m.start ∧ 0 ≤ m.stop := by
  unfold gapFillStep
  split
  · exact hacc
  · dsimp only
    split
    · -- punctuation branch
      split
      case _ p heq =>
        intro m hm
        rcases List.mem_append.mp hm with hm' | hm'
        · exact hacc m hm'
        · rw [List.mem_singleton.mp hm']
          have hp := (prev_facts sorted ti p heq).1
          have hps := (hsorted p hp).2
          refine ⟨hps, ?_⟩
          show (0:ℚ) ≤ p.stop + 50
          linarith
      case _ n hne heq =>
        intro m hm
        rcases List.mem_append.mp hm with hm' | hm'
        · exact hacc m hm'
        · rw [List.mem_singleton.mp hm']
          refine ⟨le_max_left 0 _, ?_⟩
          show (0:ℚ) ≤ max 0 (n.start - 50) + 50
          have := le_max_left (0:ℚ) (n.start - 50)
          linarith
      case _ hne hne2 =>
        intro m hm
        rcases List.mem_append.mp hm with hm' | hm'
        · exact hacc m hm'
        · rw [List.mem_singleton.mp hm']
          refine ⟨le_refl 0, ?_⟩
          show (0:ℚ) ≤ 0 + 50
          norm_num
    · -- non-punctuation: match prev, next
      split
      case _ p n heqp heqn =>
        -- interpolation between two neighbours
        intro m hm
        rcases List.mem_append.mp hm with hm' | hm'
        · exact hacc m hm'
        · rw [List.mem_singleton.mp hm']
          rcases prev_facts sorted ti p heqp with ⟨hpmem, hpti⟩
          rcases next_facts sorted ti n heqn with ⟨hnmem, hnti⟩
          have ha : (0:ℚ) ≤ p.stop := (hsorted p hpmem).2
          have hb : (0:ℚ) ≤ n.start := (hsorted n hnmem).1
          have h1 : (1:ℚ) ≤ (ti : ℚ) - (p.tokenIndex : ℚ) := by
            have : (p.tokenIndex : ℚ) + 1 ≤ (ti : ℚ) := by exact_mod_cast hpti
            linarith
          have h2 : ((ti : ℚ) - (p.tokenIndex : ℚ)) + 1 ≤
              (n.tokenIndex : ℚ) - (p.tokenIndex : ℚ) := by
            have : (ti : ℚ) + 1 ≤ (n.tokenIndex : ℚ) := by exact_mod_cast hnti
            linarith
          have key := interp_nonneg p.stop n.start
            ((ti : ℚ) - (p.tokenIndex : ℚ))
            ((n.tokenIndex : ℚ) - (p.tokenIndex : ℚ)) ha hb h1 h2
          exact key
      case _ p heqp heqn =>
        intro m hm
        rcases List.mem_append.mp hm with hm' | hm'
        · exact hacc m hm'
        · rw [List.mem_singleton.mp hm']
          rcases prev_facts sorted ti p heqp with ⟨hpmem, _⟩
          have ha : (0:ℚ) ≤ p.stop := (hsorted p hpmem).2
          have havg : (0:ℚ) ≤ min 500 (td / (tokens.length : ℚ)) :=
            le_min (by norm_num) (div_nonneg htd (Nat.cast_nonneg _))
          exact ⟨ha, add_nonneg ha havg⟩
      case _ n heqp heqn =>
        intro m hm
        rcases List.mem_append.mp hm with hm' | hm'
        · exact hacc m hm'
        · rw [List.mem_singleton.mp hm']
          have havg : (0:ℚ) ≤ min 500 (td / (tokens.length : ℚ)) :=
            le_min (by norm_num) (div_nonneg htd (Nat.cast_nonneg _))
          exact ⟨le_max_left 0 _, add_nonneg (le_max_left 0 _) havg⟩
      case _ heqp heqn =>
        intro m hm
        rcases List.mem_append.mp hm with hm' | hm'
        · exact hacc m hm'
        · rw [List.mem_singleton.mp hm']
          have hdiv : (0:ℚ) ≤ td / (tokens.length : ℚ) :=
            div_nonneg htd (Nat.cast_nonneg _)
          have hstart : (0:ℚ) ≤ ((ti : ℚ) / (tokens.length : ℚ)) * td :=
            mul_nonneg (div_nonneg (Nat.cast_nonneg _) (Nat.cast_nonneg _)) htd
          exact ⟨hstart, add_nonneg hstart hdiv⟩

/-- Every interval in the gap-filled result is non-negative. -/
theorem gapFill_nonneg (tokens : List Token) (tms : List SegMapping)
    (ms : List TokenMapping)
    (H : ∀ sm ∈ tms, 0 ≤ sm.start ∧ 0 ≤ sm.duration)
    (hms : ∀ m ∈ ms, 0 ≤ m.start ∧ 0 ≤ m.stop) :
    ∀ m ∈ gapFill tokens tms ms, 0 ≤ m.start ∧ 0 ≤ m.stop := by
  have hsorted : ∀ m ∈ sortByTokenIndex ms, 0 ≤ m.start ∧ 0 ≤ m.stop :=
    fun m hm => hms m ((sortByTokenIndex_perm ms).mem_iff.mp hm)
  have htd : 0 ≤ totalDurationOf tms := totalDurationOf_nonneg tms H
  have aux : ∀ (l : List ℕ) (acc : List TokenMapping),
      (∀ m ∈ acc, 0 ≤ m.start ∧ 0 ≤ m.stop) →
      ∀ m ∈ l.foldl (gapFillStep tokens (sortByTokenIndex ms)
        (ms.map (fun m => m.tokenIndex)) (totalDurationOf tms)) acc,
        0 ≤ m.start ∧ 0 ≤ m.stop := by
    intro l
    induction l with
    | nil => intro acc h; exact h
    | cons ti rest ih =>
      intro acc h
      rw [List.foldl_cons]
      exact ih _ (gapFillStep_nonneg tokens (sortByTokenIndex ms)
        (ms.map (fun m => m.tokenIndex)) (totalDurationOf tms) acc ti
        hsorted htd h)
  intro m hm
  unfold gapFill at hm
  have hm' := (sortByStart_perm _).mem_iff.mp hm
  exact aux (List.range tokens.length) ms hms m hm'

/-- Claim C2 (amended): whenever every input segment mapping has non-negative
start and duration, every TokenMapping returned by the aligner — evidenced,
interpolated, extrapolated, punctuation-anchored or uniform — has
`start ≥ 0` and `end ≥ 0`.  (`start ≤ end` does NOT hold in general; see the
counterexample.) -/
theorem c2_interval_nonneg (tokens : List Token) (segs : List Segment)
    (tms : List SegMapping)
    (H : ∀ sm ∈ tms, 0 ≤ sm.start ∧ 0 ≤ sm.duration) :
    ∀ m ∈ createTokenToSegmentMapping tokens segs tms,
      0 ≤ m.start ∧ 0 ≤ m.stop := by
  intro m hm
  unfold createTokenToSegmentMapping at hm
  dsimp only at hm
  have hphase : ∀ m' ∈ sortByStart (phaseB tokens tms (phaseA tokens tms).1
      (phaseA tokens tms).2).1, 0 ≤ m'.start ∧ 0 ≤ m'.stop := by
    intro m' hm'
    have := (sortByStart_perm _).mem_iff.mp hm'
    exact phaseB_nonneg tokens tms (phaseA tokens tms).1 (phaseA tokens tms).2
      H (phaseA_nonneg tokens tms H) m' this
  split at hm
  · exact gapFill_nonneg tokens tms _ H hphase m hm
  · unfold uniformFallback at hm
    dsimp only at hm
    have hm' := (sortByStart_perm _).mem_iff.mp hm
    rcases List.mem_map.mp hm' with ⟨ti, _, rfl⟩
    have havg : (0:ℚ) ≤ (if 0 < totalDurationOf tms then
        totalDurationOf tms / (tokens.length : ℚ) else 500) := by
      split
      · exact div_nonneg (totalDurationOf_nonneg tms H) (Nat.cast_nonneg _)
      · norm_num
    constructor
    · exact mul_nonneg (Nat.cast_nonneg _) havg
    · exact mul_nonneg (by positivity) havg

unseal Rat.add Rat.mul Rat.sub Rat.inv in
/-- Claim C2 witness: the amended bound evaluated on the counterexample
input — the first returned mapping has non-negative start and end. -/
theorem c2_interval_nonneg_witness :
    0 ≤ ((createTokenToSegmentMapping c2Toks [] c2Tms).getD 0 default).start ∧
    0 ≤ ((createTokenToSegmentMapping c2Toks [] c2Tms).getD 0 default).stop :=
  c2_interval_nonneg c2Toks [] c2Tms (by decide) _ (by decide)
